import Mathlib

/-!
Verification of the parser-combinator engine in `src/parser.js`.

The engine is embedded shallowly: every concrete parser class of the source
(`ItemParser`, `ZeroParser`, `ResultParser`, `BindedParser`, `AddedParser`,
`NegatedParser`, `LazyParser`) becomes one node of an inductive type, and the
`process`/`parse` methods become a fuel-indexed evaluator translated line by
line from the source.  JavaScript runtime values are modelled by the `Value`
type below.

The `Result` class (src/result) and the `util` helpers (src/util) are not part
of the sources provided; they are modelled from the spec (sections 3 and 6) as
an immutable ordered list of (value, remainder) derivations and as the
`accumulator` helper.  Under that model each `process` invocation is a pure
function of the parser's definition and its input.
-/

namespace ParserComb

/-- Codes for the binary operator function values produced by operation
parsers and consumed by `chain`/`chainRight` (for example `(a, b) => a + b`).
The engine treats such values as opaque and only ever calls them with two
arguments, so they are modelled by a first-order code interpreted by
`jsApply2` below. -/
inductive BinOpCode : Type where
  | addOp
  | leftOp
  | rightOp

/-- JavaScript-like runtime values: the inputs (strings or arrays), parsed
values, defaults, and the binary operator functions used by `chain`. -/
inductive Value : Type where
  | undefinedV
  | null
  | str (s : List Char)
  | num (n : Int)
  | arr (vs : List Value)
  | fn2 (f : BinOpCode)

/-- `v === undefined` -/
def Value.isUndefined : Value → Bool
  | .undefinedV => true
  | _ => false

/-- JavaScript truthiness of a value. -/
def jsTruthy : Value → Bool
  | .undefinedV => false
  | .null => false
  | .str s => !s.isEmpty
  | .num n => n != 0
  | .arr _ => true
  | .fn2 _ => true

/-- JavaScript strict equality `===`.  Arrays and functions compare by
reference; distinct instances are modelled as unequal. -/
def jsStrictEq : Value → Value → Bool
  | .undefinedV, .undefinedV => true
  | .null, .null => true
  | .str a, .str b => a == b
  | .num a, .num b => a == b
  | _, _ => false

/-- JavaScript `+` on the value kinds the engine actually adds (string
concatenation and number addition); other coercions are outside the modelled
domain. -/
def jsAdd : Value → Value → Value
  | .str a, .str b => .str (a ++ b)
  | .num a, .num b => .num (a + b)
  | _, _ => .undefinedV

/-- Calling a value as a binary function, `f(x, y)`; used by `chain` and
`chainRight` on the value produced by the operation parser. -/
def jsApply2 : Value → Value → Value → Value
  | .fn2 .addOp, x, y => jsAdd x y
  | .fn2 .leftOp, x, _ => x
  | .fn2 .rightOp, _, y => y
  | _, _, _ => .undefinedV

/-- The result of the JavaScript `typeof` operator. -/
inductive TypeTag : Type where
  | stringTag
  | numberTag
  | objectTag
  | functionTag
  | undefinedTag

/-- `typeof v` -/
def jsTypeof : Value → TypeTag
  | .undefinedV => .undefinedTag
  | .null => .objectTag
  | .str _ => .stringTag
  | .num _ => .numberTag
  | .arr _ => .objectTag
  | .fn2 _ => .functionTag

/-- `v.length` for the sequence kinds (0 for the others, which have no
length and never pass the `input && input.length` guard). -/
def vLen : Value → Nat
  | .str s => s.length
  | .arr vs => vs.length
  | _ => 0

/-- `v[0]`: for a string a one-character string (as in JavaScript), for an
array its first element. -/
def vFirst : Value → Value
  | .str (c :: _) => .str [c]
  | .arr (v :: _) => v
  | _ => .undefinedV

/-- `v.slice(1)` -/
def sliceOne : Value → Value
  | .str (_ :: cs) => .str cs
  | .arr (_ :: vs) => .arr vs
  | v => v

/-- `ItemParser.process`'s guarded head/tail access: `input && input.length`
is checked before `input[0]` / `input.slice(1)` are read, so absent
(null/undefined) and length-less inputs yield `none` without any access. -/
def firstRest : Value → Option (Value × Value)
  | .str (c :: cs) => some (.str [c], .str cs)
  | .arr (v :: vs) => some (v, .arr vs)
  | _ => none

/-- Modelled from the spec: the Derivation Result implemented by src/result
(whose source is not under src/) is, per section 3, an ordered sequence of
(value, remainder) derivations supporting append, order-preserving
concatenation and value-wise mapping.  It is modelled as an immutable list. -/
abbrev ParseResult := List (Value × Value)

/-- `parse`'s final step: `if (this.mapValues) this.result.values =
this.result.values.map(this.mapValues)` — maps every derivation's value and
leaves its remainder untouched. -/
def applyMapping : Option (Value → Value) → ParseResult → ParseResult
  | none, r => r
  | some f, r => r.map (fun d => (f d.1, d.2))

/-- The definitional core of a parsing unit: one constructor per concrete
parser class of src/parser.js.  `P` is the type of sub-parsers (tied to
`Parser` below).  A `then` continuation returns either a parser or a plain
value (which `parserifyCb` wraps via `Parser.result`). -/
inductive PCore (P : Type) : Type where
  | item
  | zero
  | res (v : Value)
  | binded (p : P) (cb : Value → Value → Sum P Value) (alwaysCheckSecond : Bool)
  | added (ps : List P)
  | negated (p : P)
  | lazy (fn : Unit → P)

/-- A parsing unit: its definitional core plus the `mapValues` slot set by
`Parser.map` (false/absent initially). -/
inductive Parser : Type where
  | mk (core : PCore Parser) (mapValues : Option (Value → Value))

def Parser.core : Parser → PCore Parser
  | ⟨c, _⟩ => c

def Parser.mapValues : Parser → Option (Value → Value)
  | ⟨_, m⟩ => m

mutual

/-- `copy()`.  The base-class copy (`Object.assign(new this.constructor(),
this)`) used by `ItemParser`, `ZeroParser` and `ResultParser` keeps every
field, including `mapValues`.  The overriding copies of `BindedParser`,
`AddedParser`, `NegatedParser` and `LazyParser` rebuild the node from its
parts via `super()`, so they reset `mapValues` to its initial absent state;
`AddedParser`'s constructor re-copies its children, and `BindedParser`'s and
`NegatedParser`'s constructors copy their wrapped parser. -/
def copyP : Parser → Parser
  | ⟨.item, m⟩ => ⟨.item, m⟩
  | ⟨.zero, m⟩ => ⟨.zero, m⟩
  | ⟨.res v, m⟩ => ⟨.res v, m⟩
  | ⟨.binded p cb acs, _⟩ => ⟨.binded (copyP p) cb acs, none⟩
  | ⟨.added ps, _⟩ => ⟨.added (copyList ps), none⟩
  | ⟨.negated p, _⟩ => ⟨.negated (copyP p), none⟩
  | ⟨.lazy fn, _⟩ => ⟨.lazy fn, none⟩

def copyList : List Parser → List Parser
  | [] => []
  | p :: ps => copyP p :: copyList ps

end

/-- A parser with the same core but no registered value-mapping (used to
state which parsers are fixed points of `copyP`). -/
def stripMap : Parser → Parser
  | ⟨c, _⟩ => ⟨c, none⟩

/-- `parserifyCb`'s wrapping step: a continuation result that is not a
parser is wrapped via `Parser.result`. -/
def parserify : Sum Parser Value → Parser
  | .inl q => q
  | .inr v => ⟨.res v, none⟩

/-- `AddedParser.process`'s loop: parse with each alternative in order and
return the first non-empty result. -/
def addedLoop (pf : Parser → Value → ParseResult) (input : Value) :
    List Parser → ParseResult
  | [] => []
  | q :: qs =>
    let r := pf q input
    if r.isEmpty then addedLoop pf input qs else r

/-- The `process` methods of all parser classes, translated from
src/parser.js, with a fuel parameter bounding the call depth (fuel
exhaustion yields the empty result).  `pf` is `parse`: reset the evaluation
state, run `process`, then apply a registered `mapValues`.
  - `ItemParser.process` (lines 307-314)
  - `ZeroParser.process` (lines 320-324)
  - `ResultParser.process` (lines 330-341): pushes the stored value, or the
    input itself when the stored value is undefined, without consuming
  - `BindedParser.process` (lines 355-374): parse the wrapped parser; when
    `alwaysCheckSecond` is set and it produced nothing, run the continuation
    once seeded with an empty value on the original input; otherwise run the
    continuation (wrapped via `parserify` and copied) on each derivation's
    remainder and concatenate in order
  - `AddedParser.process` (lines 395-402)
  - `NegatedParser.process` (lines 419-423): runs the wrapped parser's
    `process` (not `parse`) and succeeds with (input, input) iff it failed
  - `LazyParser.process` (lines 446-448): delegates to a fresh copy of the
    parser produced by the deferred construction function. -/
def processF : Nat → Parser → Value → ParseResult
  | 0, _, _ => []
  | n + 1, ⟨core, _⟩, input =>
    let pf : Parser → Value → ParseResult :=
      fun q i => applyMapping q.mapValues (processF n q i)
    match core with
    | .item =>
      match firstRest input with
      | some (h, t) => [(h, t)]
      | none => []
    | .zero => []
    | .res v => [(if v.isUndefined then input else v, input)]
    | .binded q cb acs =>
      let firstResult := pf q input
      if acs && firstResult.isEmpty then
        pf (copyP (parserify (cb (.str []) input))) input
      else
        firstResult.flatMap (fun d => pf (copyP (parserify (cb d.1 d.2))) d.2)
    | .added ps => addedLoop pf input ps
    | .negated q =>
      if (processF n q input).isEmpty then [(input, input)] else []
    | .lazy fn => processF n (copyP (fn ())) input

/-- `Parser.parse` (lines 38-45): reset the evaluation state, run `process`,
then apply a registered `mapValues` to every derivation's value. -/
def parseF (n : Nat) (p : Parser) (input : Value) : ParseResult :=
  applyMapping p.mapValues (processF n p input)

/-- `Parser.item()` -/
def itemP : Parser := ⟨.item, none⟩

/-- `Parser.zero()` -/
def zeroP : Parser := ⟨.zero, none⟩

/-- `Parser.result(v)` -/
def resultP (v : Value) : Parser := ⟨.res v, none⟩

/-- `Parser.lazy(fn)` -/
def lazyP (fn : Unit → Parser) : Parser := ⟨.lazy fn, none⟩

/-- `Parser.map` (lines 28-31): registers the mapping on the unit and
returns it. -/
def mapP : Parser → (Value → Value) → Parser
  | ⟨c, _⟩, f => ⟨c, some f⟩

/-- The argument accepted by `then`: a continuation function, a fixed
replacement parser, or a fixed plain value (the latter two are wrapped by
`then` into the constant callback `() => next`). -/
inductive ThenArg : Type where
  | fnArg (f : Value → Value → Sum Parser Value)
  | parserArg (q : Parser)
  | valueArg (v : Value)

/-- `then`'s callback normalisation: a non-function argument becomes the
constant callback `() => next`. -/
def thenCb : ThenArg → Value → Value → Sum Parser Value
  | .fnArg f => f
  | .parserArg q => fun _ _ => .inl q
  | .valueArg v => fun _ _ => .inr v

/-- `Parser.then(next, alwaysCheckSecond)` (lines 70-76): with `next`
omitted it returns `Parser.zero()`; otherwise it builds a `BindedParser`,
whose constructor copies the receiver. -/
def thenP (p : Parser) (next : Option ThenArg) (acs : Bool) : Parser :=
  match next with
  | none => zeroP
  | some a => ⟨.binded (copyP p) (thenCb a) acs, none⟩

/-- `or`'s wrapping of a non-parser alternative via `Parser.result`. -/
def wrapAlt : Sum Parser Value → Parser
  | .inl q => q
  | .inr v => resultP v

/-- `Parser.or(...alternatives)` (lines 83-90): wrap the receiver and every
alternative, then build an `AddedParser`, whose constructor copies each of
them. -/
def orP (p : Parser) (alts : List (Sum Parser Value)) : Parser :=
  ⟨.added (copyList ((Sum.inl p :: alts).map wrapAlt)), none⟩

/-- `Parser.orNone(empty)` (lines 52-54) -/
def orNoneP (p : Parser) (empty : Value) : Parser := orP p [.inr empty]

/-- `Parser.not()` (lines 60-62): builds a `NegatedParser`, whose
constructor copies the receiver. -/
def notP (p : Parser) : Parser := ⟨.negated (copyP p), none⟩

/-- `Parser.satisfy(condition)` (lines 97-99) -/
def satisfyP (p : Parser) (cond : Value → Bool) : Parser :=
  thenP p (some (.fnArg (fun v _ => if cond v then .inr v else .inl zeroP))) false

/-- `Parser.equals(value)` (lines 141-143) -/
def equalsP (p : Parser) (v : Value) : Parser :=
  satisfyP p (fun i => jsStrictEq v i)

/-- `Parser.startsWith(value, partial)` (lines 151-165): with a zero-length
target it returns `Parser.zero()`; otherwise it matches the first element
and recurses on `value.slice(1)` (with `partial` defaulting back to false),
the inner `then` carrying `alwaysCheckSecond = true`. -/
def startsWithP (p : Parser) (value : Value) (partialFlag : Bool) : Parser :=
  if h : vLen value = 0 then zeroP
  else
    thenP (equalsP p (vFirst value)) (some (.fnArg (fun head _ =>
      .inl (thenP (startsWithP p (sliceOne value) false) (some (.fnArg (fun tail _ =>
        let pv := jsAdd head tail
        if partialFlag then .inr pv
        else if jsStrictEq pv value then .inr value
        else .inl zeroP))) true)))) false
termination_by vLen value
decreasing_by
  cases value with
  | str s => cases s <;> simp_all [vLen, sliceOne]
  | arr vs => cases vs <;> simp_all [vLen, sliceOne]
  | undefinedV => simp_all [vLen]
  | null => simp_all [vLen]
  | num n => simp_all [vLen]
  | fn2 f => simp_all [vLen]

/-- Modelled from the spec: `util.accumulator(kind, typeHint)` (src/util is
not under src/) returns, per section 6, an appropriately-typed empty
accumulator for the kind of the first matched value: an empty string for the
string kind, an empty sequence otherwise. -/
def accumulator (kind : TypeTag) (_hint : Option Value) : Value :=
  match kind with
  | .stringTag => .str []
  | _ => .arr []

/-- The accumulation step of `many`'s inner continuation (lines 117-123):
a falsy accumulated value is replaced by a fresh empty accumulator for
`typeof c`; a string accumulator is prepended by `c + c1`, otherwise `c` is
unshifted onto the front of the sequence. -/
def manyCombine (ty : Option Value) (c c1 : Value) : Value :=
  let c2 := if jsTruthy c1 then c1 else accumulator (jsTypeof c) ty
  match c2 with
  | .str s => jsAdd c (.str s)
  | .arr vs => .arr (c :: vs)
  | _ => .undefinedV

/-- `Parser.many(type)` (lines 114-125): one match of this parser followed
by `manyOrNone('', type)`, combining the results.  The JavaScript version
rebuilds `this.manyOrNone('', type)` inside the continuation closure on
every invocation; the unbounded closure recursion is modelled by an explicit
unfolding depth `d` (depth 0 behaves as the failure parser; any depth
exceeding the number of repetitions consumed is never reached). -/
def manyP (p : Parser) (ty : Option Value) : Nat → Parser
  | 0 => zeroP
  | d + 1 =>
    thenP p (some (.fnArg (fun c _ =>
      .inl (thenP (orP (manyP p ty d) [.inr (.str [])])
        (some (.fnArg (fun c1 _ => .inl (resultP (manyCombine ty c c1))))) false)))) false

/-- `Parser.manyOrNone(empty, type)` (lines 132-134): `many(type).or(empty)`. -/
def manyOrNoneP (p : Parser) (empty : Value) (ty : Option Value) (d : Nat) : Parser :=
  orP (manyP p ty d) [.inr empty]

/-- `chain`'s local `rest` (lines 206-208): `rest(x)` matches the operation,
another occurrence of the parser, and recurses on the folded value, falling
back to `x` via ordered choice.  The closure recursion is modelled with an
explicit unfolding depth (the depth-0 cutoff keeps only the `.or(x)`
fallback and is never reached when the depth exceeds the number of folded
operations). -/
def chainRest (p op : Parser) : Nat → Value → Parser
  | 0, x => orP zeroP [.inr x]
  | d + 1, x =>
    orP (thenP op (some (.fnArg (fun f _ =>
      .inl (thenP p (some (.fnArg (fun y _ =>
        .inl (chainRest p op d (jsApply2 f x y))))) false)))) false) [.inr x]

/-- `Parser.chain(operation, def)` (lines 205-214): `this.then(rest)`, and
the default is attached via `.or(def)` when `def !== undefined`. -/
def chainP (p op : Parser) (dflt : Value) (d : Nat) : Parser :=
  let parser := thenP p (some (.fnArg (fun x _ => .inl (chainRest p op d x)))) false
  if dflt.isUndefined then parser else orP parser [.inr dflt]

/-- `Parser.chainRight(operation)` without a default (lines 223-227), as
invoked recursively from its own `rest`; the closure recursion is modelled
with an explicit unfolding depth as for `chain`. -/
def chainRightND (p op : Parser) : Nat → Parser
  | 0 => zeroP
  | d + 1 =>
    thenP p (some (.fnArg (fun x _ =>
      .inl (orP (thenP op (some (.fnArg (fun f _ =>
        .inl (thenP (chainRightND p op d) (some (.fnArg (fun y _ =>
          .inr (jsApply2 f x y)))) false)))) false) [.inr x])))) false

/-- `Parser.chainRight(operation, def)` (lines 222-231): as `chain`, but the
default is attached when `def` is truthy (`if (def)`), not merely defined. -/
def chainRightP (p op : Parser) (dflt : Value) (d : Nat) : Parser :=
  let parser := chainRightND p op d
  if jsTruthy dflt then orP parser [.inr dflt] else parser

/-- A compound (BindedParser) unit with a registered value-mapping: maps
every parsed value to the one-character string Z. -/
def exMapped : Parser :=
  mapP (thenP itemP (some (.fnArg (fun v _ => .inr v))) false) (fun _ => .str ['Z'])

/-- The one-character input x. -/
def exX : Value := .str ['x']

/-- The remainder `rem` is a suffix of the input `input`: a list suffix for
the sequence kinds, and (for the value kinds without a length, on which no
consumption is possible) the input itself. -/
def vSuffix (rem input : Value) : Prop :=
  (∃ a b, rem = .str a ∧ input = .str b ∧ a <:+ b) ∨
  (∃ a b, rem = .arr a ∧ input = .arr b ∧ a <:+ b) ∨ rem = input

theorem vSuffix_refl (v : Value) : vSuffix v v := Or.inr (Or.inr rfl)

theorem vSuffix_trans {a b c : Value} (h1 : vSuffix a b) (h2 : vSuffix b c) :
    vSuffix a c := by
  rcases h1 with ⟨x, y, rfl, rfl, hxy⟩ | ⟨x, y, rfl, rfl, hxy⟩ | rfl
  · rcases h2 with ⟨u, w, hb, rfl, huw⟩ | ⟨u, w, hb, rfl, huw⟩ | rfl
    · obtain rfl : y = u := by injection hb
      exact Or.inl ⟨x, w, rfl, rfl, hxy.trans huw⟩
    · exact absurd hb (by simp)
    · exact Or.inl ⟨x, y, rfl, rfl, hxy⟩
  · rcases h2 with ⟨u, w, hb, rfl, huw⟩ | ⟨u, w, hb, rfl, huw⟩ | rfl
    · exact absurd hb (by simp)
    · obtain rfl : y = u := by injection hb
      exact Or.inr (Or.inl ⟨x, w, rfl, rfl, hxy.trans huw⟩)
    · exact Or.inr (Or.inl ⟨x, y, rfl, rfl, hxy⟩)
  · exact h2

theorem vSuffix_vLen {a b : Value} (h : vSuffix a b) : vLen a ≤ vLen b := by
  rcases h with ⟨x, y, rfl, rfl, hxy⟩ | ⟨x, y, rfl, rfl, hxy⟩ | rfl
  · exact hxy.length_le
  · exact hxy.length_le
  · exact le_refl _

theorem applyMapping_isEmpty (m : Option (Value → Value)) (r : ParseResult) :
    (applyMapping m r).isEmpty = r.isEmpty := by
  cases m with
  | none => rfl
  | some f => cases r <;> rfl

theorem mem_applyMapping {m : Option (Value → Value)} {r : ParseResult}
    {v rem : Value} (h : (v, rem) ∈ applyMapping m r) : ∃ w, (w, rem) ∈ r := by
  cases m with
  | none => exact ⟨v, h⟩
  | some f =>
    simp only [applyMapping, List.mem_map] at h
    obtain ⟨d, hd, heq⟩ := h
    injection heq with h1 h2
    subst h2
    exact ⟨d.1, hd⟩

theorem processF_ignores_map (n : Nat) (core : PCore Parser)
    (m m2 : Option (Value → Value)) (input : Value) :
    processF n ⟨core, m⟩ input = processF n ⟨core, m2⟩ input := by
  cases n <;> rfl

mutual

theorem copyP_idem : (p : Parser) → copyP (copyP p) = copyP p
  | ⟨.item, _⟩ => rfl
  | ⟨.zero, _⟩ => rfl
  | ⟨.res v, _⟩ => rfl
  | ⟨.binded q cb acs, _⟩ => by simp [copyP, copyP_idem q]
  | ⟨.added ps, _⟩ => by simp [copyP, copyList_idem ps]
  | ⟨.negated q, _⟩ => by simp [copyP, copyP_idem q]
  | ⟨.lazy fn, _⟩ => rfl

theorem copyList_idem : (ps : List Parser) → copyList (copyList ps) = copyList ps
  | [] => rfl
  | p :: ps => by simp [copyList, copyP_idem p, copyList_idem ps]

end

/-- `process` of a copy agrees with `process` of the original whenever the
original's stored children are themselves fixed points of `copyP` — which
holds for every unit built through the combinator API, since each
constructor copies its children on the way in. -/
theorem processF_copyP (n : Nat) (p : Parser) (input : Value)
    (H : copyP (stripMap p) = stripMap p) :
    processF n (copyP p) input = processF n p input := by
  obtain ⟨core, m⟩ := p
  cases core with
  | item => rfl
  | zero => rfl
  | res v => rfl
  | binded q cb acs =>
    simp only [stripMap, copyP, Parser.mk.injEq, PCore.binded.injEq] at H
    have hq : copyP q = q := H.1.1
    show processF n ⟨.binded (copyP q) cb acs, none⟩ input = _
    rw [hq]
    exact processF_ignores_map n _ none m input
  | added ps =>
    simp only [stripMap, copyP, Parser.mk.injEq, PCore.added.injEq] at H
    have hps : copyList ps = ps := H.1
    show processF n ⟨.added (copyList ps), none⟩ input = _
    rw [hps]
    exact processF_ignores_map n _ none m input
  | negated q =>
    simp only [stripMap, copyP, Parser.mk.injEq, PCore.negated.injEq] at H
    have hq : copyP q = q := H.1
    show processF n ⟨.negated (copyP q), none⟩ input = _
    rw [hq]
    exact processF_ignores_map n _ none m input
  | lazy fn =>
    show processF n ⟨.lazy fn, none⟩ input = _
    exact processF_ignores_map n _ none m input

theorem mem_addedLoop {pf : Parser → Value → ParseResult} {input : Value}
    {x : Value × Value} :
    ∀ ps : List Parser, x ∈ addedLoop pf input ps → ∃ q ∈ ps, x ∈ pf q input := by
  intro ps
  induction ps with
  | nil => intro h; simp [addedLoop] at h
  | cons q qs ihq =>
    intro h
    simp only [addedLoop] at h
    split at h
    · obtain ⟨q2, hq2, hx⟩ := ihq h
      exact ⟨q2, List.mem_cons_of_mem q hq2, hx⟩
    · exact ⟨q, List.mem_cons_self q qs, h⟩

/-- Every derivation any unit ever produces leaves a remainder that is a
suffix of the input handed to it. -/
theorem processF_suffix :
    ∀ n p input v rem, (v, rem) ∈ processF n p input → vSuffix rem input := by
  intro n
  induction n with
  | zero => intro p input v rem h; simp [processF] at h
  | succ n ih =>
    intro p input v rem h
    obtain ⟨core, m⟩ := p
    cases core with
    | item =>
      simp only [processF] at h
      cases hf : firstRest input with
      | none => rw [hf] at h; simp at h
      | some ht =>
        obtain ⟨hv, htl⟩ := ht
        rw [hf] at h
        simp at h
        obtain ⟨h1, h2⟩ := h
        subst h2
        cases input with
        | str s =>
          cases s with
          | nil => simp [firstRest] at hf
          | cons c cs =>
            simp only [firstRest, Option.some.injEq, Prod.mk.injEq] at hf
            obtain ⟨hf1, hf2⟩ := hf
            rw [← hf2]
            exact Or.inl ⟨cs, c :: cs, rfl, rfl, ⟨[c], rfl⟩⟩
        | arr vs =>
          cases vs with
          | nil => simp [firstRest] at hf
          | cons w ws =>
            simp only [firstRest, Option.some.injEq, Prod.mk.injEq] at hf
            obtain ⟨hf1, hf2⟩ := hf
            rw [← hf2]
            exact Or.inr (Or.inl ⟨ws, w :: ws, rfl, rfl, ⟨[w], rfl⟩⟩)
        | undefinedV => simp [firstRest] at hf
        | null => simp [firstRest] at hf
        | num k => simp [firstRest] at hf
        | fn2 f => simp [firstRest] at hf
    | zero => simp [processF] at h
    | res v0 =>
      simp only [processF, List.mem_singleton] at h
      injection h with h1 h2
      rw [h2]
      exact vSuffix_refl input
    | binded q cb acs =>
      simp only [processF] at h
      split at h
      · obtain ⟨w, hw⟩ := mem_applyMapping h
        exact ih _ input w rem hw
      · simp only [List.mem_flatMap] at h
        obtain ⟨d, hd, hx⟩ := h
        obtain ⟨dv, ds⟩ := d
        obtain ⟨w1, hw1⟩ := mem_applyMapping hd
        obtain ⟨w2, hw2⟩ := mem_applyMapping hx
        exact vSuffix_trans (ih _ ds w2 rem hw2) (ih _ input w1 ds hw1)
    | added ps =>
      simp only [processF] at h
      obtain ⟨q, hq, hx⟩ := mem_addedLoop ps h
      obtain ⟨w, hw⟩ := mem_applyMapping hx
      exact ih _ input w rem hw
    | negated q =>
      simp only [processF] at h
      split at h
      · simp only [List.mem_singleton] at h
        injection h with h1 h2
        rw [h2]
        exact vSuffix_refl input
      · simp at h
    | lazy fn =>
      simp only [processF] at h
      exact ih _ input v rem h

/-- `parse`-level corollary of `processF_suffix`: the value mapping applied
by `parse` leaves remainders untouched. -/
theorem parseF_suffix {n : Nat} {p : Parser} {input v rem : Value}
    (h : (v, rem) ∈ parseF n p input) : vSuffix rem input := by
  obtain ⟨w, hw⟩ := mem_applyMapping h
  exact processF_suffix n p input w rem hw

theorem applyMapping_nil (m : Option (Value → Value)) : applyMapping m [] = [] := by
  cases m <;> rfl

theorem processF_item_nil (k : Nat) : processF k itemP (.str []) = [] := by
  cases k <;> rfl

/-- A `BindedParser` without `alwaysCheckSecond` whose wrapped parser fails
produces the empty result. -/
theorem processF_binded_fail (p : Parser) (cb : Value → Value → Sum Parser Value)
    (k : Nat) (input : Value) (H : copyP (stripMap p) = stripMap p)
    (hfail : ∀ j, processF j p input = []) :
    processF (k + 1) ⟨.binded (copyP p) cb false, none⟩ input = [] := by
  show ((applyMapping (copyP p).mapValues (processF k (copyP p) input)).flatMap _) = []
  rw [processF_copyP k p input H, hfail k, applyMapping_nil]
  rfl

/-- C3: every derivation any unit produces has a remainder that is a suffix
of the input (hence no longer than it); the Item unit consumes exactly one
element; the Unit/Pure, Zero and Negation units consume nothing (Zero by
producing no derivation at all). -/
theorem c3_consumption_monotonicity :
    (∀ n p input v rem, (v, rem) ∈ parseF n p input →
        vSuffix rem input ∧ vLen rem ≤ vLen input)
    ∧ (∀ n input v rem, (v, rem) ∈ parseF n itemP input → vLen rem + 1 = vLen input)
    ∧ (∀ w n input v rem, (v, rem) ∈ parseF n (resultP w) input → rem = input)
    ∧ (∀ n input, parseF n zeroP input = [])
    ∧ (∀ q n input v rem, (v, rem) ∈ parseF n (notP q) input → rem = input) := by
  refine ⟨?_, ?_, ?_, ?_, ?_⟩
  · intro n p input v rem h
    exact ⟨parseF_suffix h, vSuffix_vLen (parseF_suffix h)⟩
  · intro n input v rem h
    cases n with
    | zero =>
      rw [show parseF 0 itemP input = [] from rfl] at h
      simp at h
    | succ n =>
      cases input with
      | str s =>
        cases s with
        | nil =>
          rw [show parseF (n + 1) itemP (.str []) = [] from rfl] at h
          simp at h
        | cons c cs =>
          rw [show parseF (n + 1) itemP (.str (c :: cs))
              = [(.str [c], .str cs)] from rfl] at h
          simp only [List.mem_singleton, Prod.mk.injEq] at h
          rw [h.2]
          simp [vLen]
      | arr vs =>
        cases vs with
        | nil =>
          rw [show parseF (n + 1) itemP (.arr []) = [] from rfl] at h
          simp at h
        | cons w ws =>
          rw [show parseF (n + 1) itemP (.arr (w :: ws))
              = [(w, .arr ws)] from rfl] at h
          simp only [List.mem_singleton, Prod.mk.injEq] at h
          rw [h.2]
          simp [vLen]
      | undefinedV =>
        rw [show parseF (n + 1) itemP .undefinedV = [] from rfl] at h
        simp at h
      | null =>
        rw [show parseF (n + 1) itemP .null = [] from rfl] at h
        simp at h
      | num k =>
        rw [show parseF (n + 1) itemP (.num k) = [] from rfl] at h
        simp at h
      | fn2 f =>
        rw [show parseF (n + 1) itemP (.fn2 f) = [] from rfl] at h
        simp at h
  · intro w n input v rem h
    cases n with
    | zero =>
      rw [show parseF 0 (resultP w) input = [] from rfl] at h
      simp at h
    | succ n =>
      rw [show parseF (n + 1) (resultP w) input
          = [(if w.isUndefined then input else w, input)] from rfl] at h
      simp only [List.mem_singleton, Prod.mk.injEq] at h
      exact h.2
  · intro n input
    cases n <;> rfl
  · intro q n input v rem h
    cases n with
    | zero =>
      rw [show parseF 0 (notP q) input = [] from rfl] at h
      simp at h
    | succ n =>
      rw [show parseF (n + 1) (notP q) input
          = (if (processF n (copyP q) input).isEmpty
             then [(input, input)] else []) from rfl] at h
      split at h
      · simp only [List.mem_singleton, Prod.mk.injEq] at h
        exact h.2
      · simp at h

/-- Witness for C3 at a concrete input: the derivation Item produces on the
two-character input ab is in its parse result, and the theorem yields the
suffix facts for it. -/
theorem c3_consumption_monotonicity_witness :
    ((Value.str ['a'], Value.str ['b']) ∈ parseF 2 itemP (.str ['a', 'b']))
    ∧ vSuffix (.str ['b']) (.str ['a', 'b'])
    ∧ vLen (Value.str ['b']) + 1 = vLen (Value.str ['a', 'b']) := by
  have hm : (Value.str ['a'], Value.str ['b']) ∈ parseF 2 itemP (.str ['a', 'b']) := by
    rw [show parseF 2 itemP (.str ['a', 'b'])
        = [(.str ['a'], .str ['b'])] from rfl]
    exact List.mem_singleton.mpr rfl
  refine ⟨hm, ?_, ?_⟩
  · exact (c3_consumption_monotonicity.1 2 itemP (.str ['a', 'b'])
      (.str ['a']) (.str ['b']) hm).1
  · exact c3_consumption_monotonicity.2.1 2 (.str ['a', 'b'])
      (.str ['a']) (.str ['b']) hm

/-- C5: `then` invoked with no continuation does not raise a construction
error; it returns the failure unit `Parser.zero()` (the behaviour stated in
section 4.1), whose parse yields the empty Result on every input. -/
theorem c5_then_without_continuation :
    (∀ p acs, thenP p none acs = zeroP)
    ∧ (∀ p acs n input, parseF n (thenP p none acs) input = []) := by
  constructor
  · intro p acs
    rfl
  · intro p acs n input
    cases n <;> rfl

/-- C9: with a mapping registered via `map`, `parse` replaces every
derivation's value by its image under the mapping and keeps every
derivation's remainder; the number and order of derivations are unchanged
(the result is exactly the value-wise map of the raw `process` output). -/
theorem c9_map_frame (p : Parser) (f : Value → Value) (n : Nat) (input : Value) :
    parseF n (mapP p f) input = (processF n p input).map (fun d => (f d.1, d.2))
    ∧ (parseF n (mapP p f) input).length = (processF n p input).length
    ∧ (parseF n (mapP p f) input).map Prod.snd = (processF n p input).map Prod.snd := by
  obtain ⟨core, m⟩ := p
  have h1 : parseF n (mapP ⟨core, m⟩ f) input
      = (processF n ⟨core, m⟩ input).map (fun d => (f d.1, d.2)) := by
    show applyMapping (some f) (processF n ⟨core, some f⟩ input) = _
    rw [processF_ignores_map n core (some f) m input]
    rfl
  refine ⟨h1, ?_, ?_⟩
  · rw [h1, List.length_map]
  · rw [h1, List.map_map]
    rfl

/-- C10: the Item unit's `process` on a null or undefined input returns the
empty Result: the `input && input.length` guard rejects an absent input
before its length or elements are ever read (`firstRest` is `none` there),
so Item is total on such inputs. -/
theorem c10_item_nullish_total :
    (∀ n, processF n itemP .null = [] ∧ processF n itemP .undefinedV = [])
    ∧ (∀ n, parseF n itemP .null = [] ∧ parseF n itemP .undefinedV = []) := by
  constructor
  · intro n
    cases n <;> exact ⟨rfl, rfl⟩
  · intro n
    cases n <;> exact ⟨rfl, rfl⟩

/-- C4 counterexample: `startsWith` with a zero-length target raises no
construction error; it returns the ordinary failure unit `Parser.zero()`
(line 160 of the source is `return Parser.zero()`), and the failure
surfaces only at parse time as the empty Result. -/
theorem c4_counterexample :
    startsWithP itemP (.str []) false = zeroP
    ∧ parseF 3 (startsWithP itemP (.str []) false) (.str ['a', 'b']) = [] := by
  have h : startsWithP itemP (.str []) false = zeroP := by
    unfold startsWithP
    simp [vLen]
  exact ⟨h, by rw [h]; rfl⟩

/-- C4 (amended): calling `startsWith` with a zero-length target returns
the Zero/failure unit at construction time, without raising any error; the
resulting unit yields the empty Result on every input at parse time. -/
theorem c4_startsWith_empty_returns_zero :
    (∀ p pb, startsWithP p (.str []) pb = zeroP ∧ startsWithP p (.arr []) pb = zeroP)
    ∧ (∀ p pb n input, parseF n (startsWithP p (.str []) pb) input = []) := by
  have hz : ∀ p pb, startsWithP p (.str []) pb = zeroP := by
    intro p pb
    unfold startsWithP
    simp [vLen]
  constructor
  · intro p pb
    refine ⟨hz p pb, ?_⟩
    unfold startsWithP
    simp [vLen]
  · intro p pb n input
    rw [hz p pb]
    cases n <;> rfl

/-- C6: negation is a zero-consumption lookahead.  For every unit whose
stored children are fixed points of `copyP` (true of every unit built
through the combinator API, whose constructors copy their children on the
way in), `p.not()` yields exactly the single derivation (input, input) when
`p` yields no derivation on that input, and the empty Result otherwise. -/
theorem c6_negation_zero_consumption (p : Parser) (n : Nat) (input : Value)
    (H : copyP (stripMap p) = stripMap p) :
    parseF (n + 1) (notP p) input =
      if (parseF n p input).isEmpty then [(input, input)] else [] := by
  have hc := processF_copyP n p input H
  have he : (parseF n p input).isEmpty = (processF n p input).isEmpty :=
    applyMapping_isEmpty p.mapValues (processF n p input)
  show (if (processF n (copyP p) input).isEmpty
        then ([(input, input)] : ParseResult) else []) = _
  rw [hc, he]

/-- Witness for C6: negated Item on the empty input succeeds with the
(empty) input as both value and remainder. -/
theorem c6_negation_zero_consumption_witness :
    parseF 2 (notP itemP) (.str []) = [(.str [], .str [])] := by
  have h := c6_negation_zero_consumption itemP 1 (.str []) rfl
  rw [h]
  rfl

/-- C2 counterexample: `copy()` does not preserve the full definitional
configuration.  `exMapped` is a `then`-built (BindedParser) unit carrying a
registered value-mapping; `BindedParser.copy` rebuilds the node without
copying `mapValues`, so the copy parses differently from the original. -/
theorem c2_counterexample :
    (copyP exMapped).mapValues = none
    ∧ exMapped.mapValues ≠ none
    ∧ parseF 4 (copyP exMapped) exX ≠ parseF 4 exMapped exX := by
  refine ⟨rfl, Option.some_ne_none _, ?_⟩
  rw [show parseF 4 (copyP exMapped) exX = [(.str ['x'], .str [])] from rfl]
  rw [show parseF 4 exMapped exX = [(.str ['Z'], .str [])] from rfl]
  simp

/-- C2 (amended): evaluation is isolated — under the immutable Result model
a unit's `process`/`parse` output is a pure function of its definition and
its own input, so runs of a unit and of its copy can never contaminate one
another — and `copy` preserves the semantics of the raw `process` for every
API-built unit; the full parse agrees as well whenever the copy retains the
registered mapping (always for primitive units, and for compound units
exactly when no mapping was registered, since their `copy` drops it). -/
theorem c2_copy_semantics (p : Parser) (n : Nat) (input : Value)
    (H : copyP (stripMap p) = stripMap p) :
    processF n (copyP p) input = processF n p input
    ∧ ((copyP p).mapValues = Parser.mapValues p →
        parseF n (copyP p) input = parseF n p input) := by
  refine ⟨processF_copyP n p input H, fun hm => ?_⟩
  show applyMapping (copyP p).mapValues (processF n (copyP p) input)
      = applyMapping p.mapValues (processF n p input)
  rw [hm, processF_copyP n p input H]

/-- Witness for C2: an or-built unit and its copy give identical results. -/
theorem c2_copy_semantics_witness :
    processF 3 (copyP (orP itemP [.inl zeroP])) exX
      = processF 3 (orP itemP [.inl zeroP]) exX
    ∧ parseF 3 (copyP (orP itemP [.inl zeroP])) exX
      = parseF 3 (orP itemP [.inl zeroP]) exX := by
  have h := c2_copy_semantics (orP itemP [.inl zeroP]) 3 exX rfl
  exact ⟨h.1, h.2 rfl⟩

/-- C1 counterexample: the combined Result of `a.or(b)` is not always the
left unit's Result.  With `a` a compound (BindedParser) unit carrying a
registered value-mapping, `or`'s construction-time copy of `a` drops the
mapping, so the combined Result differs from `a.parse`'s even though `a`
succeeds. -/
theorem c1_counterexample :
    parseF 4 exMapped exX ≠ []
    ∧ parseF 5 (orP exMapped [.inl zeroP]) exX ≠ parseF 4 exMapped exX := by
  constructor
  · rw [show parseF 4 exMapped exX = [(.str ['Z'], .str [])] from rfl]
    simp
  · rw [show parseF 5 (orP exMapped [.inl zeroP]) exX
        = [(.str ['x'], .str [])] from rfl]
    rw [show parseF 4 exMapped exX = [(.str ['Z'], .str [])] from rfl]
    simp

/-- C1 (amended): ordered choice is committed and priority-ordered up to
the construction-time copy `or` takes of each alternative: for alternatives
that are fixed points of `copyP` (all primitives, and compound units with
no registered mapping), if the left unit succeeds the combined Result is
exactly the left unit's Result and the right alternative is never
consulted; if the left fails the combined Result is the right alternative's
(hence empty when both fail); and a non-Parser alternative is wrapped as a
unit producing that value unconsumed. -/
theorem c1_ordered_choice (a b : Parser) (n : Nat) (input : Value)
    (ha : copyP a = a) (hb : copyP b = b) :
    (parseF (n + 1) (orP a [.inl b]) input =
      if (parseF n a input).isEmpty then parseF n b input else parseF n a input)
    ∧ (∀ v : Value, orP a [.inr v] = orP a [.inl (resultP v)]) := by
  refine ⟨?_, fun v => rfl⟩
  have hlist : copyList ((Sum.inl a :: [Sum.inl b]).map wrapAlt) = [a, b] := by
    simp [copyList, wrapAlt, ha, hb]
  have h0 : parseF (n + 1) (orP a [.inl b]) input
      = addedLoop (parseF n) input [a, b] := by
    show applyMapping none (processF (n + 1)
        ⟨.added (copyList ((Sum.inl a :: [Sum.inl b]).map wrapAlt)), none⟩ input) = _
    rw [hlist]
    rfl
  rw [h0]
  simp only [addedLoop]
  by_cases hA : (parseF n a input).isEmpty = true
  · rw [if_pos hA, if_pos hA]
    by_cases hB : (parseF n b input).isEmpty = true
    · rw [if_pos hB]
      exact (List.isEmpty_iff.mp hB).symm
    · rw [if_neg hB]
  · rw [if_neg hA, if_neg hA]

/-- Witness for C1 at primitive alternatives: Item wins on a non-empty
input and the Result-unit alternative is not consulted. -/
theorem c1_ordered_choice_witness :
    parseF 3 (orP itemP [.inl (resultP (.str ['k']))]) exX =
      (if (parseF 2 itemP exX).isEmpty then parseF 2 (resultP (.str ['k'])) exX
       else parseF 2 itemP exX)
    ∧ orP itemP [.inr (.str ['k'])] = orP itemP [.inl (resultP (.str ['k']))] := by
  have h := c1_ordered_choice itemP (resultP (.str ['k'])) 2 exX rfl rfl
  exact ⟨h.1, h.2 (.str ['k'])⟩

/-- `many` of Item fails on the empty input at every fuel and every
unfolding depth: the wrapped Item produces no first match. -/
theorem processF_many_item_nil (k d : Nat) :
    processF k (manyP itemP none d) (.str []) = [] := by
  cases d with
  | zero => cases k <;> rfl
  | succ d =>
    cases k with
    | zero => rfl
    | succ k =>
      show ((applyMapping (Parser.mapValues itemP)
        (processF k itemP (.str []))).flatMap _) = []
      rw [processF_item_nil k]
      rfl

/-- C7: repetition correctness on the concrete inputs of the spec:
`item().many()` on abc yields exactly the derivation (abc, empty);
`item().many()` on the empty input yields the empty Result (at every fuel
and unfolding depth); `item().manyOrNone()` on the empty input yields the
single derivation (empty, empty). -/
theorem c7_repetition :
    parseF 30 (manyP itemP none 6) (.str ['a', 'b', 'c'])
      = [(.str ['a', 'b', 'c'], .str [])]
    ∧ (∀ n d, parseF n (manyP itemP none d) (.str []) = [])
    ∧ (∀ n d, parseF (n + 2) (manyOrNoneP itemP (.str []) none d) (.str [])
        = [(.str [], .str [])]) := by
  refine ⟨rfl, ?_, ?_⟩
  · intro n d
    show applyMapping (manyP itemP none d).mapValues
      (processF n (manyP itemP none d) (.str [])) = []
    rw [processF_many_item_nil n d]
    exact applyMapping_nil _
  · intro n d
    have hcopy : copyP (manyP itemP none d) = manyP itemP none d := by
      cases d <;> rfl
    have hnil : parseF (n + 1) (manyP itemP none d) (.str []) = [] := by
      show applyMapping (manyP itemP none d).mapValues
        (processF (n + 1) (manyP itemP none d) (.str [])) = []
      rw [processF_many_item_nil (n + 1) d]
      exact applyMapping_nil _
    show addedLoop (parseF (n + 1)) (.str [])
        (copyP (manyP itemP none d) :: [resultP (.str [])]) = _
    rw [hcopy]
    simp only [addedLoop]
    rw [hnil]
    rfl

/-- Evaluation of a two-alternative ordered choice: the first alternative's
construction-time copy is parsed first and wins if non-empty. -/
theorem parseF_orP_two (a b : Parser) (n : Nat) (input : Value) :
    parseF (n + 1) (orP a [.inl b]) input =
      if (parseF n (copyP a) input).isEmpty then parseF n (copyP b) input
      else parseF n (copyP a) input := by
  show addedLoop (parseF n) input (copyP a :: [copyP b]) = _
  simp only [addedLoop]
  by_cases hA : (parseF n (copyP a) input).isEmpty = true
  · rw [if_pos hA, if_pos hA]
    by_cases hB : (parseF n (copyP b) input).isEmpty = true
    · rw [if_pos hB]
      exact (List.isEmpty_iff.mp hB).symm
    · rw [if_neg hB]
  · rw [if_neg hA, if_neg hA]

/-- `then`-built units are fixed points of `copyP` up to the idempotence of
the inner construction-time copy. -/
theorem copyP_thenP (p : Parser) (arg : ThenArg) (acs : Bool) :
    copyP (thenP p (some arg) acs) = thenP p (some arg) acs := by
  show (⟨.binded (copyP (copyP p)) (thenCb arg) acs, none⟩ : Parser)
      = ⟨.binded (copyP p) (thenCb arg) acs, none⟩
  rw [copyP_idem p]

/-- Parse-level form of `processF_binded_fail` for `then`-built units. -/
theorem parseF_thenP_fail (p : Parser) (arg : ThenArg) (k : Nat) (input : Value)
    (H : copyP (stripMap p) = stripMap p)
    (hfail : ∀ j, processF j p input = []) :
    parseF (k + 1) (thenP p (some arg) false) input = [] := by
  show applyMapping none
    (processF (k + 1) ⟨.binded (copyP p) (thenCb arg) false, none⟩ input) = []
  rw [processF_binded_fail p (thenCb arg) k input H hfail]
  rfl

/-- C8: the default-fallback rule of `chain` and `chainRight` diverges on a
falsy-but-defined default.  For any unit (with `copyP`-fixed children) that
yields no initial match on the input, `chain(operation, def)` with `def`
the empty string or the number zero succeeds with exactly that default
(it checks `def !== undefined`), while `chainRight(operation, def)` with
the same default fails with the empty Result (it checks truthiness). -/
theorem c8_chain_default_falsy (p op : Parser) (d n : Nat) (input : Value)
    (H : copyP (stripMap p) = stripMap p)
    (hfail : ∀ k, processF k p input = []) :
    parseF (n + 2) (chainP p op (.str []) d) input = [(.str [], input)]
    ∧ parseF (n + 2) (chainP p op (.num 0) d) input = [(.num 0, input)]
    ∧ parseF (n + 2) (chainRightP p op (.str []) d) input = []
    ∧ parseF (n + 2) (chainRightP p op (.num 0) d) input = [] := by
  have hright : parseF (n + 2) (chainRightND p op d) input = [] := by
    cases d with
    | zero => rfl
    | succ d => exact parseF_thenP_fail p _ (n + 1) input H hfail
  have hchain : ∀ (v : Value), v.isUndefined = false →
      parseF (n + 2) (orP (thenP p (some (.fnArg (fun x _ =>
          .inl (chainRest p op d x)))) false) [.inl (resultP v)]) input
        = [(v, input)] := by
    intro v hv
    rw [parseF_orP_two]
    rw [copyP_thenP]
    rw [parseF_thenP_fail p _ n input H hfail]
    rw [show copyP (resultP v) = resultP v from rfl,
        show parseF (n + 1) (resultP v) input
          = [(if v.isUndefined then input else v, input)] from rfl]
    simp [hv]
  exact ⟨hchain (.str []) rfl, hchain (.num 0) rfl, hright, hright⟩

/-- Witness for C8: the always-failing Zero unit chained with an operation,
with the empty string and the number zero as defaults. -/
theorem c8_chain_default_falsy_witness :
    parseF 3 (chainP zeroP itemP (.str []) 3) exX = [(.str [], exX)]
    ∧ parseF 3 (chainP zeroP itemP (.num 0) 3) exX = [(.num 0, exX)]
    ∧ parseF 3 (chainRightP zeroP itemP (.str []) 3) exX = []
    ∧ parseF 3 (chainRightP zeroP itemP (.num 0) 3) exX = [] :=
  c8_chain_default_falsy zeroP itemP 3 1 exX rfl (fun k => by cases k <;> rfl)

end ParserComb
